import Mathlib

/-!
Shallow embedding of the RTSP request layer of the neon repository
(src/pkg/tcp/context.go): the decoder `UnmarshalRequest`, the header map
`HeaderLines`, the `Request` accessors (`ToString`, `CSeq`), the
`SetParameter` method view, and the TCP connection `Context`
(`RemoteAddr`, `LocalAddr`, `Network`, `Write`).

Byte strings are modelled as `List Char` (the inputs of interest are
ASCII).  Go library functions used by the source are embedded faithfully:
`bytes.Index` as `indexOfSub`, `bytes.Split` as `splitOnCRLF` /
`splitOnChar`, `strings.ToLower` as `toLowerB` (ASCII case folding),
`strconv.Atoi` as `atoi` (optional sign, decimal digits only, no
whitespace, 64-bit range).  A Go map is modelled as an association list
with overwrite-on-insert (`hset`) and empty-string-on-miss lookup
(`hget`).  A Go slice expression `buf[a:b]` whose bounds are out of range
does not return: the decoder result type has a dedicated
`sliceOutOfRange` outcome for it, and nil-interface method calls in the
connection context are likewise modelled by a dedicated `nilDeref`
outcome.
-/

namespace Neon

abbrev Bytes := List Char

def crlf : Bytes := ['\r', '\n']

def crlfcrlf : Bytes := ['\r', '\n', '\r', '\n']

/-- `bytes.Index buf sep`: index of the first occurrence of `sep` in
`buf`, or `none` when there is no occurrence. -/
def indexOfSub (sep : Bytes) : Bytes → Option Nat
  | [] => if sep.isPrefixOf ([] : Bytes) then some 0 else none
  | a :: t =>
    if sep.isPrefixOf (a :: t) then some 0
    else (indexOfSub sep t).map (· + 1)

/-- `bytes.Split buf sep` for the two-byte separator `"\r\n"`:
leftmost-first splitting around each occurrence of the separator. -/
def splitOnCRLF : Bytes → List Bytes
  | [] => [[]]
  | [a] => [[a]]
  | a :: b :: t =>
    if a = '\r' ∧ b = '\n' then [] :: splitOnCRLF t
    else
      match splitOnCRLF (b :: t) with
      | [] => [[a]]
      | l :: ls => (a :: l) :: ls

/-- `bytes.Split buf sep` for a one-byte separator. -/
def splitOnChar (sep : Char) : Bytes → List Bytes
  | [] => [[]]
  | a :: t =>
    if a = sep then [] :: splitOnChar sep t
    else
      match splitOnChar sep t with
      | [] => [[a]]
      | l :: ls => (a :: l) :: ls

/-- `strings.ToLower`, restricted to ASCII case folding. -/
def toLowerB (s : Bytes) : Bytes := s.map Char.toLower

def digitsToNat (l : Bytes) : Nat :=
  l.foldl (fun a c => a * 10 + (c.toNat - '0'.toNat)) 0

/-- `strconv.Atoi`: an optional sign followed by at least one decimal
digit, nothing else (in particular no whitespace), within the range of a
64-bit signed integer.  `none` models the error return. -/
def atoi (s : Bytes) : Option Int :=
  match s with
  | [] => none
  | _ =>
    let neg : Bool := s.headD ' ' = '-'
    let digits : Bytes := if s.headD ' ' = '-' ∨ s.headD ' ' = '+' then s.tail else s
    if digits = [] then none
    else if digits.all Char.isDigit then
      let n : Nat := digitsToNat digits
      if neg then (if n ≤ 2 ^ 63 then some (-(n : Int)) else none)
      else (if n < 2 ^ 63 then some (n : Int) else none)
    else none

/-- The header map `HeaderLines` of the source, modelled as an
association list (a Go `map[string]string`). -/
abbrev HeaderLines := List (Bytes × Bytes)

/-- Go map insertion `m[k] = v`: overwrite in place, or append. -/
def hset : HeaderLines → Bytes → Bytes → HeaderLines
  | [], k, v => [(k, v)]
  | kv :: rest, k, v =>
    if kv.1 = k then (k, v) :: rest else kv :: hset rest k v

/-- Go map lookup `m[k]`: the stored value, or `""` when absent. -/
def hget : HeaderLines → Bytes → Bytes
  | [], _ => []
  | kv :: rest, k => if kv.1 = k then kv.2 else hget rest k

structure Request where
  Method : Bytes
  Url : Bytes
  Version : Bytes
  Lines : HeaderLines
  Content : Bytes
deriving DecidableEq

inductive UnmarshalError where
  | incomplete
  | invalidPacket
  | contentLength
deriving DecidableEq

/-- Outcome of `UnmarshalRequest buf`: a decoded request together with
the consumed byte count, an error together with the returned byte count,
or the runtime fault raised by a slice expression whose bounds are out
of range. -/
inductive UnmarshalResult where
  | ok : Request → Int → UnmarshalResult
  | err : UnmarshalError → Int → UnmarshalResult
  | sliceOutOfRange : UnmarshalResult
deriving DecidableEq

def contentLengthKey : Bytes := "content-length".toList

/-- The header loop of `UnmarshalRequest` (context.go lines 116-137):
it ranges over every line (the request line included), skips empty lines
and lines without a colon, stores the lower-cased key with the untrimmed
remainder as value, and parses the value with `Atoi` at every
`content-length` occurrence, returning the parse error (`none`)
immediately when that fails. -/
def processLines : List Bytes → HeaderLines → Int → Option (HeaderLines × Int)
  | [], hdrs, cl => some (hdrs, cl)
  | line :: rest, hdrs, cl =>
    if line = [] then processLines rest hdrs cl
    else
      match indexOfSub [':'] line with
      | none => processLines rest hdrs cl
      | some idx =>
        let key := toLowerB (line.take idx)
        let value := line.drop (idx + 1)
        let hdrs2 := hset hdrs key value
        if key = contentLengthKey then
          match atoi value with
          | none => none
          | some n => processLines rest hdrs2 n
        else processLines rest hdrs2 cl

/-- `UnmarshalRequest` (context.go lines 85-144). -/
def UnmarshalRequest (buf : Bytes) : UnmarshalResult :=
  match indexOfSub crlfcrlf buf with
  | none => .err .incomplete (-1)
  | some headerEndOffset =>
    let endOffset : Int := Int.ofNat headerEndOffset + 4
    let lines := splitOnCRLF (buf.take headerEndOffset)
    if lines.length < 2 then .err .invalidPacket endOffset
    else
      let methodLineParts := splitOnChar ' ' (lines.headD [])
      if methodLineParts.length ≠ 3 then .err .invalidPacket endOffset
      else
        match processLines lines [] 0 with
        | none => .err .contentLength endOffset
        | some (hdrs, contentLength) =>
          if contentLength < 0 ∨
              Int.ofNat buf.length < Int.ofNat headerEndOffset + 4 + contentLength then
            .sliceOutOfRange
          else
            .ok { Method := toLowerB (methodLineParts.getD 0 [])
                  Url := toLowerB (methodLineParts.getD 1 [])
                  Version := toLowerB (methodLineParts.getD 2 [])
                  Lines := hdrs
                  Content := (buf.drop (headerEndOffset + 4)).take contentLength.toNat }
              (endOffset + contentLength)

/-- `HeaderLines.String` (context.go lines 146-152): serialize each
entry as `key ++ ": " ++ value ++ "\r\n"` in iteration order. -/
def HeaderLines.string (m : HeaderLines) : Bytes :=
  m.foldl (fun s kv => s ++ kv.1 ++ [':', ' '] ++ kv.2 ++ crlf) []

/-- `Request.ToString` (context.go lines 162-164). -/
def Request.ToString (req : Request) : Bytes :=
  req.Method ++ [' '] ++ req.Url ++ [' '] ++ req.Version ++ crlf
    ++ HeaderLines.string req.Lines ++ crlf ++ req.Content

def cseqKey : Bytes := "cseq".toList

/-- `Request.CSeq` (context.go lines 166-178). -/
def Request.CSeq (req : Request) : Int :=
  let cseqLine := hget req.Lines cseqKey
  if cseqLine = [] then -1
  else
    match atoi cseqLine with
    | none => -1
    | some n => n

/-- The `SetParameterRequest` method view (context.go lines 324-327). -/
structure SetParameterRequest where
  toRequest : Request
deriving DecidableEq

def Request.SetParameter (req : Request) : SetParameterRequest := ⟨req⟩

/-- `SetParameterRequest.Parameters` (context.go lines 329-346): split
the body on `"\r\n"`, split each line on `":"` (every colon), keep only
lines with exactly two parts. -/
def SetParameterRequest.Parameters (r : SetParameterRequest) : HeaderLines :=
  if r.toRequest.Content = [] then []
  else
    (splitOnCRLF r.toRequest.Content).foldl
      (fun params line =>
        let parts := splitOnChar ':' line
        if parts.length ≠ 2 then params
        else hset params (parts.getD 0 []) (parts.getD 1 []))
      []

/-- The wire form of one header-map entry inside `HeaderLines.String`:
`key ++ ": " ++ value` (the trailing CRLF kept separate). -/
def serLine (kv : Bytes × Bytes) : Bytes := kv.1 ++ ':' :: ' ' :: kv.2

/-- Lines joined by the CRLF separator: the header region of a wire
message. -/
def interCRLF : List Bytes → Bytes
  | [] => []
  | [l] => l
  | l :: l2 :: ls => l ++ crlf ++ interCRLF (l2 :: ls)

/-- A request-line token as the decoder itself produces it: free of
space, colon, CR and LF, and fixed by lower-casing. -/
abbrev tokenOK (t : Bytes) : Prop :=
  (∀ c ∈ t, c ≠ ' ' ∧ c ≠ ':' ∧ c ≠ '\r' ∧ c ≠ '\n') ∧ toLowerB t = t

/-- A header key as the decoder itself produces it: free of colon, CR
and LF, and fixed by lower-casing. -/
abbrev keyOK (k : Bytes) : Prop :=
  (∀ c ∈ k, c ≠ ':' ∧ c ≠ '\r' ∧ c ≠ '\n') ∧ toLowerB k = k

/-- A header value free of CR and LF. -/
abbrev valOK (v : Bytes) : Prop := ∀ c ∈ v, c ≠ '\r' ∧ c ≠ '\n'

/-- A buffer whose decode produces the single header entry
`"x" -> "1"`. -/
def rtInput : Bytes := "a b c\r\nx:1\r\n\r\n".toList

/-- The request that decoding `rtInput` yields. -/
def rtReq : Request :=
  ⟨"a".toList, "b".toList, "c".toList, [("x".toList, "1".toList)], []⟩

/-- A `gnet` address: the results of its `String()` and `Network()`
methods. -/
structure GnetAddr where
  addrString : Bytes
  addrNetwork : Bytes
deriving DecidableEq

/-- A `gnet.Conn` handle, as far as the context queries observe it: its
remote and local addresses, either of which the transport may report as
nil. -/
structure GnetConn where
  remoteAddr : Option GnetAddr
  localAddr : Option GnetAddr
deriving DecidableEq

/-- `tcp.Context` (context.go lines 17-19): a nullable transport
handle. -/
structure Context where
  Conn : Option GnetConn
deriving DecidableEq

/-- Outcome of an address query: a returned string, or the runtime
fault of calling a method on a nil value. -/
inductive AddrResult where
  | ret : Bytes → AddrResult
  | nilDeref : AddrResult
deriving DecidableEq

/-- `Context.RemoteAddr` (context.go lines 45-51). -/
def Context.RemoteAddr (ctx : Context) : AddrResult :=
  match ctx.Conn with
  | none => .ret []
  | some c =>
    match c.remoteAddr with
    | none => .ret []
    | some a => .ret a.addrString

/-- `Context.LocalAddr` (context.go lines 53-59): the guard tests the
remote address, then calls `String()` on the local address. -/
def Context.LocalAddr (ctx : Context) : AddrResult :=
  match ctx.Conn with
  | none => .ret []
  | some c =>
    match c.remoteAddr with
    | none => .ret []
    | some _ =>
      match c.localAddr with
      | none => .nilDeref
      | some a => .ret a.addrString

/-- `Context.Network` (context.go lines 61-67): only the handle is
checked before calling `Network()` on the remote address. -/
def Context.Network (ctx : Context) : AddrResult :=
  match ctx.Conn with
  | none => .ret []
  | some c =>
    match c.remoteAddr with
    | none => .nilDeref
    | some a => .ret a.addrNetwork

/-- Outcome of `Context.Write`: the payload handed to
`gnet.Conn.AsyncWrite`, or the runtime fault of calling a method on a
nil interface. -/
inductive WriteResult where
  | asyncWrite : Bytes → WriteResult
  | nilDeref : WriteResult
deriving DecidableEq

/-- `Context.Write` (context.go lines 25-27): `ctx.Conn.AsyncWrite`
with no nil check. -/
def Context.Write (ctx : Context) (data : Bytes) : WriteResult :=
  match ctx.Conn with
  | none => .nilDeref
  | some _ => .asyncWrite data

/-- The decoded request of a result, when there is one. -/
def UnmarshalResult.request : UnmarshalResult → Option Request
  | .ok req _ => some req
  | _ => none

/-- The byte count returned by a result (the consumed count on success,
the resynchronisation count on error, nothing on a runtime fault). -/
def UnmarshalResult.consumed : UnmarshalResult → Option Int
  | .ok _ n => some n
  | .err _ n => some n
  | .sliceOutOfRange => none

/-- The example input of the specification. -/
def setupExample : Bytes :=
  "SETUP rtsp://host/stream1 RTSP/1.0\r\nCSeq: 3\r\nTransport: RTP/AVP;unicast\r\n\r\n".toList

/-- A buffer with a terminator and a well-formed request line whose
declared body length (5) exceeds the bytes that follow the terminator
(2). -/
def c4Input : Bytes := "a b c\r\ncontent-length:5\r\n\r\nab".toList

/-- A buffer whose first `content-length` occurrence does not parse
while its last occurrence does. -/
def c5errInput : Bytes :=
  "a b c\r\ncontent-length:x\r\ncontent-length:0\r\n\r\n".toList

/-- A buffer carrying two parsable `content-length` occurrences, `0`
then `2`, followed by a 2-byte body. -/
def c5okInput : Bytes :=
  "a b c\r\ncontent-length:0\r\ncontent-length:2\r\n\r\nhi".toList

/-- A buffer whose `content-length` value parses to `-1`. -/
def c10Input : Bytes := "a b c\r\ncontent-length:-1\r\n\r\n".toList

/-- A connection context with no attached transport handle. -/
def detachedCtx : Context := ⟨none⟩

/-- A transport handle that reports a remote address but no local
address. -/
def remoteOnlyConn : GnetConn :=
  ⟨some ⟨"127.0.0.1:554".toList, "tcp".toList⟩, none⟩

/-- A transport handle that reports no remote address. -/
def noRemoteConn : GnetConn :=
  ⟨none, some ⟨"127.0.0.1:8554".toList, "tcp".toList⟩⟩

/-- A `SET_PARAMETER` view whose body line holds two colons. -/
def spColon : SetParameterRequest := ⟨⟨[], [], [], [], "k:v:w".toList⟩⟩

/-- The `SET_PARAMETER` view of the specification's example body. -/
def spExample : SetParameterRequest :=
  ⟨⟨[], [], [], [], "a:1\r\nbadline\r\nb:2".toList⟩⟩

/-- A header line whose `content-length` value is not an integer. -/
def clxLine : Bytes := "content-length:x".toList

/-- A header line whose `content-length` value is `2`. -/
def cl2Line : Bytes := "content-length:2".toList

/-- The `content-length` value carried by a header line, mirroring the
branch structure of the header loop: `none` when the line is empty, has
no colon, or has a key other than `content-length`. -/
def clOf (line : Bytes) : Option Bytes :=
  if line = [] then none
  else
    match indexOfSub [':'] line with
    | none => none
    | some idx =>
      if toLowerB (line.take idx) = contentLengthKey then
        some (line.drop (idx + 1))
      else none

theorem indexOfSub_eq_none_iff (sep s : Bytes) :
    indexOfSub sep s = none ↔ ¬ sep <:+: s := by
  induction s with
  | nil =>
    by_cases h : sep = []
    · subst h; simp [indexOfSub]
    · simp [indexOfSub, List.infix_nil, h, List.isPrefixOf_iff_prefix,
        List.prefix_nil]
  | cons a t ih =>
    by_cases h : sep.isPrefixOf (a :: t)
    · simp only [indexOfSub, h, if_true, List.infix_cons_iff]
      constructor
      · intro hc; exact absurd hc (by simp)
      · intro hc; exact absurd (Or.inl (List.isPrefixOf_iff_prefix.mp h)) hc
    · simp only [indexOfSub, h, if_false, List.infix_cons_iff, Bool.false_eq_true]
      rw [show (Option.map (fun x => x + 1) (indexOfSub sep t) = none) ↔
          (indexOfSub sep t = none) by cases indexOfSub sep t <;> simp]
      rw [ih]
      constructor
      · intro hni hc
        rcases hc with hp | hi
        · exact h (List.isPrefixOf_iff_prefix.mpr hp)
        · exact hni hi
      · intro hc hi
        exact hc (Or.inr hi)

theorem indexOfSub_singleton_none (c : Char) (s : Bytes)
    (h : ∀ x ∈ s, x ≠ c) : indexOfSub [c] s = none := by
  induction s with
  | nil => rfl
  | cons a t ih =>
    have ha : a ≠ c := h a (by simp)
    have iht := ih (fun x hx => h x (by simp [hx]))
    simp [indexOfSub, List.isPrefixOf, iht, Ne.symm ha]

theorem indexOfSub_singleton_append (c : Char) (l rest : Bytes)
    (h : ∀ x ∈ l, x ≠ c) : indexOfSub [c] (l ++ c :: rest) = some l.length := by
  induction l with
  | nil => simp [indexOfSub, List.isPrefixOf]
  | cons a t ih =>
    have ha : a ≠ c := h a (by simp)
    have iht := ih (fun x hx => h x (by simp [hx]))
    simp [indexOfSub, List.isPrefixOf, iht, Ne.symm ha]

theorem splitOnChar_no_sep (sep : Char) (s : Bytes)
    (h : ∀ c ∈ s, c ≠ sep) : splitOnChar sep s = [s] := by
  induction s with
  | nil => rfl
  | cons a t ih =>
    have ha : a ≠ sep := h a (by simp)
    have iht := ih (fun c hc => h c (by simp [hc]))
    simp [splitOnChar, ha, iht]

theorem splitOnChar_append (sep : Char) (l rest : Bytes)
    (h : ∀ c ∈ l, c ≠ sep) :
    splitOnChar sep (l ++ sep :: rest) = l :: splitOnChar sep rest := by
  induction l with
  | nil => simp [splitOnChar]
  | cons a t ih =>
    have ha : a ≠ sep := h a (by simp)
    have iht := ih (fun c hc => h c (by simp [hc]))
    simp [splitOnChar, ha, iht]

theorem splitOnCRLF_no_cr (s : Bytes) (h : ∀ c ∈ s, c ≠ '\r') :
    splitOnCRLF s = [s] := by
  induction s with
  | nil => rfl
  | cons a t ih =>
    cases t with
    | nil => rfl
    | cons b t2 =>
      have ha : a ≠ '\r' := h a (by simp)
      have iht : splitOnCRLF (b :: t2) = [b :: t2] :=
        ih (fun c hc => h c (by simp [hc]))
      simp [splitOnCRLF, iht, ha]

/-- C1, counterexample: decoding the example input succeeds, but `CSeq`
returns `-1` rather than the claimed `3` — the stored header value is
the untrimmed remainder `" 3"`, whose leading space `Atoi` rejects. -/
theorem C1_counterexample :
    (UnmarshalRequest setupExample).request.map Request.CSeq = some (-1) ∧
      (UnmarshalRequest setupExample).request.map Request.CSeq ≠ some 3 := by
  decide

/-- C3: the header loop of `UnmarshalRequest` ranges over every line of
the header region, the request line included, so decoding the example
input stores an entry derived from the request line
`"SETUP rtsp://host/stream1 RTSP/1.0"`: key `"setup rtsp"` (lower-cased
text before the first colon), value `"//host/stream1 RTSP/1.0"`.  This
contradicts the claim that no entry is ever derived from the request
line. -/
theorem C3_requestLineEntry :
    (UnmarshalRequest setupExample).request.map
        (fun r => hget r.Lines ("setup rtsp".toList)) =
      some ("//host/stream1 RTSP/1.0".toList) := by
  decide

/-- C4: on a buffer with the terminator, a well-formed request line and
`content-length: 5`, but only 2 body bytes, the decoder evaluates the
slice `buf[headerEnd+4 : headerEnd+4+5]` past the end of the buffer — a
runtime fault, not an `Incomplete` return. -/
theorem C4_shortBodyFault :
    indexOfSub crlfcrlf c4Input = some 23 ∧
      UnmarshalRequest c4Input = .sliceOutOfRange := by
  decide

/-- C5, counterexample: when the first `content-length` occurrence
(`"x"`) fails to parse, the decoder returns the parse error even though
the last occurrence (`"0"`) parses — refuting the claim that the error
occurs exactly when the last stored value fails to parse. -/
theorem C5_counterexample :
    UnmarshalRequest c5errInput = .err .contentLength 45 ∧
      atoi ['0'] = some 0 := by
  decide

/-- C7: on a detached context every query returns the empty string, and
`RemoteAddr` never faults; but `LocalAddr` calls `String()` on a nil
local address whenever the remote address is non-nil (its guard tests
the wrong endpoint), and `Network` calls `Network()` on a nil remote
address whenever a handle is attached — both are nil dereferences,
contradicting the claim that the queries never fail. -/
theorem C7_addrQueryFault :
    Context.RemoteAddr detachedCtx = .ret [] ∧
      Context.LocalAddr detachedCtx = .ret [] ∧
      Context.Network detachedCtx = .ret [] ∧
      (∀ ctx : Context, Context.RemoteAddr ctx ≠ .nilDeref) ∧
      Context.LocalAddr ⟨some remoteOnlyConn⟩ = .nilDeref ∧
      Context.Network ⟨some noRemoteConn⟩ = .nilDeref := by
  refine ⟨rfl, rfl, rfl, ?_, rfl, rfl⟩
  rintro ⟨_ | ⟨_ | a, l⟩⟩ h <;> simp [Context.RemoteAddr] at h

/-- C7, instance: the universally quantified conjunct of
`C7_addrQueryFault` evaluated on a concrete context. -/
theorem C7_witness :
    Context.RemoteAddr ⟨some remoteOnlyConn⟩ ≠ .nilDeref :=
  C7_addrQueryFault.2.2.2.1 ⟨some remoteOnlyConn⟩

/-- C8: `Write` on a detached context dereferences the nil transport
handle (`ctx.Conn.AsyncWrite` with no nil check) — a runtime fault, not
an error return; with a handle attached it hands the payload to
`AsyncWrite`. -/
theorem C8_writeNilFault :
    Context.Write detachedCtx ("x".toList) = .nilDeref ∧
      ∀ c : GnetConn, ∀ data : Bytes,
        Context.Write ⟨some c⟩ data = .asyncWrite data := by
  exact ⟨rfl, fun c data => rfl⟩

/-- C8, instance: the universally quantified conjunct of
`C8_writeNilFault` evaluated on a concrete context and payload. -/
theorem C8_witness :
    Context.Write ⟨some remoteOnlyConn⟩ ("y".toList) =
      .asyncWrite ("y".toList) :=
  C8_writeNilFault.2 remoteOnlyConn ("y".toList)

/-- C9, counterexample: `Parameters` splits each line on every colon
and keeps only lines with exactly two parts, so the body `"k:v:w"`
(three parts) is skipped and yields the empty map, not the claimed pair
`("k", "v:w")`. -/
theorem C9_counterexample :
    SetParameterRequest.Parameters spColon = [] ∧
      SetParameterRequest.Parameters spColon ≠
        [("k".toList, "v:w".toList)] := by
  decide

/-- C10: `Atoi "-1"` succeeds with `-1`, and on a buffer declaring
`content-length:-1` the decoder evaluates the body slice
`buf[headerEnd+4 : headerEnd+3]`, whose upper bound is below its lower
bound — a runtime fault: the decoder is total only when the parsed
content length is non-negative. -/
theorem C10_negativeLengthFault :
    atoi ("-1".toList) = some (-1) ∧
      UnmarshalRequest c10Input = .sliceOutOfRange := by
  decide

/-- C6: every buffer that does not contain the four-byte terminator
decodes to the incomplete-packet error with a returned byte count of
`-1`. -/
theorem C6_noTerminator (buf : Bytes) (h : ¬ crlfcrlf <:+: buf) :
    UnmarshalRequest buf = .err .incomplete (-1) := by
  have hidx : indexOfSub crlfcrlf buf = none := (indexOfSub_eq_none_iff _ _).mpr h
  simp [UnmarshalRequest, hidx]

/-- C6, instance: `C6_noTerminator` evaluated on the buffer `"abc"`. -/
theorem C6_witness :
    ¬ crlfcrlf <:+: ("abc".toList) ∧
      UnmarshalRequest ("abc".toList) = .err .incomplete (-1) :=
  ⟨by decide, C6_noTerminator ("abc".toList) (by decide)⟩

/-- C1, amended: decoding the example input succeeds with method
`"setup"`, an empty body, and a consumed count equal to the input
length, but `CSeq` returns `-1`: the stored `cseq` value is the
untrimmed `" 3"`, which `Atoi` rejects.  In general `CSeq` returns `-1`
when the stored `cseq` value is absent/empty or rejected by `Atoi`, and
the parsed integer otherwise. -/
theorem C1_amended :
    (UnmarshalRequest setupExample).request.map Request.Method =
        some ("setup".toList) ∧
      (UnmarshalRequest setupExample).request.map Request.Content = some [] ∧
      (UnmarshalRequest setupExample).consumed =
        some (Int.ofNat setupExample.length) ∧
      (UnmarshalRequest setupExample).request.map Request.CSeq = some (-1) ∧
      ∀ req : Request,
        Request.CSeq req =
          if hget req.Lines cseqKey = [] then -1
          else (atoi (hget req.Lines cseqKey)).getD (-1) := by
  refine ⟨by decide, by decide, by decide, by decide, ?_⟩
  intro req
  simp only [Request.CSeq]
  cases h : atoi (hget req.Lines cseqKey) <;> simp [h]

/-- C1, instance: the universally quantified conjunct of `C1_amended`
evaluated on a concrete request. -/
theorem C1_witness :
    Request.CSeq ⟨[], [], [], [(cseqKey, ['4', '2'])], []⟩ = 42 := by
  rw [C1_amended.2.2.2.2 ⟨[], [], [], [(cseqKey, ['4', '2'])], []⟩]
  decide

theorem processLines_cons_of_clOf_none (l : Bytes) (rest : List Bytes)
    (hdrs : HeaderLines) (cl : Int) (h : clOf l = none) :
    ∃ h2, processLines (l :: rest) hdrs cl = processLines rest h2 cl := by
  by_cases he : l = []
  · exact ⟨hdrs, by simp [processLines, he]⟩
  · cases hidx : indexOfSub [':'] l with
    | none => exact ⟨hdrs, by simp [processLines, he, hidx]⟩
    | some idx =>
      have hkey : ¬ toLowerB (l.take idx) = contentLengthKey := by
        intro hk
        simp [clOf, he, hidx, hk] at h
      exact ⟨hset hdrs (toLowerB (l.take idx)) (l.drop (idx + 1)),
        by simp [processLines, he, hidx, hkey]⟩

theorem clOf_some_elim (l : Bytes) (v : Bytes) (hv : clOf l = some v) :
    ∃ idx, l ≠ [] ∧ indexOfSub [':'] l = some idx ∧
      toLowerB (l.take idx) = contentLengthKey ∧ l.drop (idx + 1) = v := by
  by_cases he : l = []
  · simp [clOf, he] at hv
  · cases hidx : indexOfSub [':'] l with
    | none => simp [clOf, he, hidx] at hv
    | some idx =>
      by_cases hk : toLowerB (l.take idx) = contentLengthKey
      · refine ⟨idx, he, rfl, hk, ?_⟩
        simpa [clOf, he, hidx, hk] using hv
      · simp [clOf, he, hidx, hk] at hv

theorem processLines_cons_of_clOf_err (l : Bytes) (rest : List Bytes)
    (hdrs : HeaderLines) (cl : Int) (v : Bytes)
    (hv : clOf l = some v) (ha : atoi v = none) :
    processLines (l :: rest) hdrs cl = none := by
  obtain ⟨idx, he, hidx, hk, hdrop⟩ := clOf_some_elim l v hv
  simp [processLines, he, hidx, hk, hdrop, ha]

theorem processLines_cons_of_clOf_ok (l : Bytes) (rest : List Bytes)
    (hdrs : HeaderLines) (cl : Int) (v : Bytes) (n : Int)
    (hv : clOf l = some v) (ha : atoi v = some n) :
    ∃ h2, processLines (l :: rest) hdrs cl = processLines rest h2 n := by
  obtain ⟨idx, he, hidx, hk, hdrop⟩ := clOf_some_elim l v hv
  exact ⟨hset hdrs (toLowerB (l.take idx)) (l.drop (idx + 1)),
    by simp [processLines, he, hidx, hk, hdrop, ha]⟩

theorem processLines_no_cl (lines : List Bytes) (hdrs : HeaderLines) (cl : Int)
    (h : ∀ l ∈ lines, clOf l = none) :
    ∃ m, processLines lines hdrs cl = some (m, cl) := by
  induction lines generalizing hdrs with
  | nil => exact ⟨hdrs, rfl⟩
  | cons l rest ih =>
    obtain ⟨h2, he⟩ :=
      processLines_cons_of_clOf_none l rest hdrs cl (h l (by simp))
    obtain ⟨m, hm⟩ := ih h2 (fun x hx => h x (by simp [hx]))
    exact ⟨m, he.trans hm⟩

/-- C5, amended: the header loop parses every `content-length`
occurrence as it stores it.  The first occurrence whose value `Atoi`
rejects aborts the loop with the parse error, regardless of later
occurrences; when every occurrence parses, the last occurrence is the
content length that survives.  End to end, a buffer declaring
`content-length` `0` and then `2` decodes with a 2-byte body. -/
theorem C5_amended :
    (∀ (pre : List Bytes) (l : Bytes) (post : List Bytes)
        (hdrs : HeaderLines) (cl : Int) (v : Bytes),
        (∀ x ∈ pre, ∀ w, clOf x = some w → (atoi w).isSome) →
        clOf l = some v → atoi v = none →
        processLines (pre ++ l :: post) hdrs cl = none) ∧
      (∀ (pre : List Bytes) (l : Bytes) (post : List Bytes)
          (hdrs : HeaderLines) (cl : Int) (v : Bytes) (n : Int),
          (∀ x ∈ pre, ∀ w, clOf x = some w → (atoi w).isSome) →
          clOf l = some v → atoi v = some n →
          (∀ x ∈ post, clOf x = none) →
          ∃ m, processLines (pre ++ l :: post) hdrs cl = some (m, n)) ∧
      UnmarshalRequest c5okInput =
        .ok ⟨['a'], ['b'], ['c'], [(contentLengthKey, ['2'])], ['h', 'i']⟩ 47 := by
  refine ⟨?_, ?_, by decide⟩
  · intro pre
    induction pre with
    | nil =>
      intro l post hdrs cl v _ hv ha
      simpa using processLines_cons_of_clOf_err l post hdrs cl v hv ha
    | cons x pre ih =>
      intro l post hdrs cl v hpre hv ha
      cases hcx : clOf x with
      | none =>
        obtain ⟨h2, he⟩ :=
          processLines_cons_of_clOf_none x (pre ++ l :: post) hdrs cl hcx
        rw [List.cons_append, he]
        exact ih l post h2 cl v (fun y hy => hpre y (by simp [hy])) hv ha
      | some w =>
        have hw : (atoi w).isSome := hpre x (by simp) w hcx
        obtain ⟨nw, hnw⟩ := Option.isSome_iff_exists.mp hw
        obtain ⟨h2, he⟩ :=
          processLines_cons_of_clOf_ok x (pre ++ l :: post) hdrs cl w nw hcx hnw
        rw [List.cons_append, he]
        exact ih l post h2 nw v (fun y hy => hpre y (by simp [hy])) hv ha
  · intro pre
    induction pre with
    | nil =>
      intro l post hdrs cl v n _ hv ha hpost
      obtain ⟨h2, he⟩ := processLines_cons_of_clOf_ok l post hdrs cl v n hv ha
      obtain ⟨m, hm⟩ := processLines_no_cl post h2 n hpost
      exact ⟨m, by rw [List.nil_append, he, hm]⟩
    | cons x pre ih =>
      intro l post hdrs cl v n hpre hv ha hpost
      cases hcx : clOf x with
      | none =>
        obtain ⟨h2, he⟩ :=
          processLines_cons_of_clOf_none x (pre ++ l :: post) hdrs cl hcx
        rw [List.cons_append, he]
        exact ih l post h2 cl v n (fun y hy => hpre y (by simp [hy])) hv ha hpost
      | some w =>
        have hw : (atoi w).isSome := hpre x (by simp) w hcx
        obtain ⟨nw, hnw⟩ := Option.isSome_iff_exists.mp hw
        obtain ⟨h2, he⟩ :=
          processLines_cons_of_clOf_ok x (pre ++ l :: post) hdrs cl w nw hcx hnw
        rw [List.cons_append, he]
        exact ih l post h2 nw v n (fun y hy => hpre y (by simp [hy])) hv ha hpost

/-- C5, instance: both quantified conjuncts of `C5_amended` evaluated
on concrete header lines. -/
theorem C5_witness :
    processLines [clxLine] [] 0 = none ∧
      ∃ m, processLines [cl2Line] [] 0 = some (m, 2) :=
  ⟨C5_amended.1 [] clxLine [] [] 0 ("x".toList) (by simp) (by decide) (by decide),
    C5_amended.2.1 [] cl2Line [] [] 0 ['2'] 2 (by simp) (by decide) (by decide)
      (by simp)⟩

/-- C9, amended: `Parameters` splits the body on `"\r\n"` and each line
on every colon, keeping only lines that split into exactly two parts: on
the example body `"a:1\r\nbadline\r\nb:2"` it returns
`{"a": "1", "b": "2"}`, while a line with two colons — a value that
itself contains a colon — is skipped, not kept. -/
theorem C9_amended :
    SetParameterRequest.Parameters spExample =
        [("a".toList, "1".toList), ("b".toList, "2".toList)] ∧
      ∀ k v w : Bytes,
        (∀ c ∈ k ++ v ++ w, c ≠ ':' ∧ c ≠ '\r') →
        SetParameterRequest.Parameters
            ⟨⟨[], [], [], [], k ++ ':' :: (v ++ ':' :: w)⟩⟩ = [] := by
  refine ⟨by decide, ?_⟩
  intro k v w h
  have hk : ∀ c ∈ k, c ≠ ':' ∧ c ≠ '\r' := fun c hc => h c (by simp [hc])
  have hv : ∀ c ∈ v, c ≠ ':' ∧ c ≠ '\r' := fun c hc => h c (by simp [hc])
  have hw : ∀ c ∈ w, c ≠ ':' ∧ c ≠ '\r' := fun c hc => h c (by simp [hc])
  have hne : k ++ ':' :: (v ++ ':' :: w) ≠ [] := by simp
  have hnor : ∀ c ∈ k ++ ':' :: (v ++ ':' :: w), c ≠ '\r' := by
    intro c hc
    rcases List.mem_append.mp hc with hck | hcr
    · exact (hk c hck).2
    · rcases List.mem_cons.mp hcr with hcc | hcr2
      · subst hcc; decide
      · rcases List.mem_append.mp hcr2 with hcv | hcw
        · exact (hv c hcv).2
        · rcases List.mem_cons.mp hcw with hcc | hcw2
          · subst hcc; decide
          · exact (hw c hcw2).2
  have hsplit1 : splitOnCRLF (k ++ ':' :: (v ++ ':' :: w)) =
      [k ++ ':' :: (v ++ ':' :: w)] := splitOnCRLF_no_cr _ hnor
  have hsc : splitOnChar ':' (k ++ ':' :: (v ++ ':' :: w)) = k :: v :: [w] := by
    rw [splitOnChar_append ':' k _ (fun c hc => (hk c hc).1),
      splitOnChar_append ':' v _ (fun c hc => (hv c hc).1),
      splitOnChar_no_sep ':' w (fun c hc => (hw c hc).1)]
  simp [SetParameterRequest.Parameters, hne, hsplit1, hsc]

/-- C9, instance: the universally quantified conjunct of `C9_amended`
evaluated on the body `"p:q:r"`. -/
theorem C9_witness :
    SetParameterRequest.Parameters
        ⟨⟨[], [], [], [],
          "p".toList ++ ':' :: ("q".toList ++ ':' :: "r".toList)⟩⟩ = [] :=
  C9_amended.2 "p".toList "q".toList "r".toList (by decide)

theorem headerLinesString_shape (m : HeaderLines) (acc : Bytes) :
    m.foldl (fun s kv => s ++ kv.1 ++ [':', ' '] ++ kv.2 ++ crlf) acc =
      acc ++ (m.map (fun kv => serLine kv ++ crlf)).flatten := by
  induction m generalizing acc with
  | nil => simp
  | cons kv rest ih =>
    rw [List.foldl_cons, ih]
    simp [serLine, List.append_assoc]

theorem flatten_crlf_eq_inter (L : List Bytes) (hne : L ≠ []) :
    (L.map (· ++ crlf)).flatten = interCRLF L ++ crlf := by
  induction L with
  | nil => exact absurd rfl hne
  | cons l rest ih =>
    cases rest with
    | nil => simp [interCRLF]
    | cons l2 rest2 =>
      have ih2 := ih (by simp)
      rw [List.map_cons, List.flatten_cons, ih2]
      rw [show interCRLF (l :: l2 :: rest2) = l ++ crlf ++ interCRLF (l2 :: rest2) from rfl]
      simp [List.append_assoc]

theorem toString_as_inter (req : Request) (hne : req.Lines ≠ []) :
    Request.ToString req =
      interCRLF ((req.Method ++ ' ' :: (req.Url ++ ' ' :: req.Version))
          :: req.Lines.map serLine) ++ crlfcrlf ++ req.Content := by
  obtain ⟨kv0, rest, hL⟩ := List.exists_cons_of_ne_nil hne
  have hmapne : (req.Lines.map (fun kv => serLine kv ++ crlf)).flatten =
      interCRLF (req.Lines.map serLine) ++ crlf := by
    rw [show req.Lines.map (fun kv => serLine kv ++ crlf) =
        (req.Lines.map serLine).map (· ++ crlf) by simp]
    exact flatten_crlf_eq_inter _ (by simp [hL])
  simp only [Request.ToString, HeaderLines.string]
  rw [headerLinesString_shape req.Lines [], hmapne]
  rw [show req.Lines.map serLine = serLine kv0 :: rest.map serLine by simp [hL]]
  simp [interCRLF, crlfcrlf, crlf, List.append_assoc]



theorem indexOfSub_skip_head (sep : Bytes) (A B : Bytes)
    (hsep : sep ≠ []) (h : ∀ c ∈ A, c ≠ sep.headD ' ') :
    indexOfSub sep (A ++ B) = (indexOfSub sep B).map (· + A.length) := by
  induction A with
  | nil =>
    cases hI : indexOfSub sep B <;> simp [hI]
  | cons a t ih =>
    have ha : a ≠ sep.headD ' ' := h a (by simp)
    have hpre : sep.isPrefixOf (a :: (t ++ B)) = false := by
      obtain ⟨s0, srest, hs⟩ := List.exists_cons_of_ne_nil hsep
      subst hs
      simp only [List.headD_cons] at ha
      simp [List.isPrefixOf, Ne.symm ha]
    have iht := ih (fun c hc => h c (by simp [hc]))
    rw [List.cons_append]
    rw [show indexOfSub sep (a :: (t ++ B)) =
        (indexOfSub sep (t ++ B)).map (· + 1) by simp [indexOfSub, hpre]]
    rw [iht]
    (cases hI : indexOfSub sep B <;> simp [hI])
    omega

theorem indexOfSub_self_append (sep B : Bytes) :
    indexOfSub sep (sep ++ B) = some 0 := by
  have hp : sep.isPrefixOf (sep ++ B) = true :=
    List.isPrefixOf_iff_prefix.mpr (List.prefix_append sep B)
  cases hs : sep ++ B with
  | nil => rw [hs] at hp; simp [indexOfSub, hp]
  | cons a t => rw [hs] at hp; simp [indexOfSub, hp]

theorem indexOfSub_crlfcrlf_crlf_skip (b : Bytes) (hb : b.headD ' ' ≠ '\r') :
    indexOfSub crlfcrlf (crlf ++ b) = (indexOfSub crlfcrlf b).map (· + 2) := by
  cases b with
  | nil => decide
  | cons c t =>
    simp only [List.headD_cons] at hb
    have h1 : crlfcrlf.isPrefixOf ('\r' :: '\n' :: c :: t) = false := by
      simp [crlfcrlf, List.isPrefixOf, Ne.symm hb]
    have h2 : crlfcrlf.isPrefixOf ('\n' :: c :: t) = false := by
      simp [crlfcrlf, List.isPrefixOf]
    rw [show crlf ++ c :: t = '\r' :: '\n' :: c :: t from rfl]
    rw [show indexOfSub crlfcrlf ('\r' :: '\n' :: c :: t) =
        (indexOfSub crlfcrlf ('\n' :: c :: t)).map (· + 1) by
      simp [indexOfSub, h1]]
    rw [show indexOfSub crlfcrlf ('\n' :: c :: t) =
        (indexOfSub crlfcrlf (c :: t)).map (· + 1) by
      simp [indexOfSub, h2]]
    cases hI : indexOfSub crlfcrlf (c :: t) <;> simp [hI]

theorem interCRLF_head_cons (l : Bytes) (c0 : Char) (lt : Bytes) (rest : List Bytes)
    (hl : l = c0 :: lt) :
    ∃ s, interCRLF (l :: rest) = c0 :: s := by
  cases rest with
  | nil => exact ⟨lt, by simp [interCRLF, hl]⟩
  | cons l2 rest2 => exact ⟨lt ++ crlf ++ interCRLF (l2 :: rest2), by simp [interCRLF, hl]⟩

theorem indexOfSub_crlfcrlf_inter (L : List Bytes)
    (h : ∀ l ∈ L, l ≠ [] ∧ ∀ c ∈ l, c ≠ '\r') (tail : Bytes) (hne : L ≠ []) :
    indexOfSub crlfcrlf (interCRLF L ++ crlfcrlf ++ tail) =
      some (interCRLF L).length := by
  induction L with
  | nil => exact absurd rfl hne
  | cons l rest ih =>
    obtain ⟨hlne, hlchars⟩ := h l (by simp)
    cases rest with
    | nil =>
      rw [show interCRLF [l] = l from rfl, List.append_assoc]
      rw [indexOfSub_skip_head crlfcrlf l (crlfcrlf ++ tail) (by decide)
        (fun c hc => by simpa [crlfcrlf] using hlchars c hc)]
      rw [indexOfSub_self_append]
      simp
    | cons l2 rest2 =>
      obtain ⟨hl2ne, hl2chars⟩ := h l2 (by simp)
      obtain ⟨c0, l2t, hl2⟩ := List.exists_cons_of_ne_nil hl2ne
      obtain ⟨s, hs⟩ := interCRLF_head_cons l2 c0 l2t rest2 hl2
      have hc0 : c0 ≠ '\r' := hl2chars c0 (by simp [hl2])
      rw [show interCRLF (l :: l2 :: rest2) = l ++ crlf ++ interCRLF (l2 :: rest2)
        from rfl]
      rw [List.append_assoc, List.append_assoc, List.append_assoc]
      rw [indexOfSub_skip_head crlfcrlf l (crlf ++ (interCRLF (l2 :: rest2) ++ (crlfcrlf ++ tail)))
        (by decide) (fun c hc => by simpa [crlfcrlf] using hlchars c hc)]
      rw [indexOfSub_crlfcrlf_crlf_skip (interCRLF (l2 :: rest2) ++ (crlfcrlf ++ tail))
        (by rw [hs]; simp [hc0])]
      rw [show interCRLF (l2 :: rest2) ++ (crlfcrlf ++ tail) =
          interCRLF (l2 :: rest2) ++ crlfcrlf ++ tail by simp [List.append_assoc]]
      rw [ih (fun x hx => h x (by simp [hx])) (by simp)]
      simp [crlf, List.length_append]
      omega



theorem splitOnCRLF_append (l rest : Bytes) (h : ∀ c ∈ l, c ≠ '\r') :
    splitOnCRLF (l ++ crlf ++ rest) = l :: splitOnCRLF rest := by
  induction l with
  | nil => simp [splitOnCRLF, crlf]
  | cons a t ih =>
    have ha : a ≠ '\r' := h a (by simp)
    have iht := ih (fun c hc => h c (by simp [hc]))
    obtain ⟨d, X, hdx⟩ : ∃ d X, t ++ crlf ++ rest = d :: X := by
      cases t with
      | nil => exact ⟨'\r', '\n' :: rest, by simp [crlf]⟩
      | cons t0 tt => exact ⟨t0, tt ++ crlf ++ rest, by simp [List.append_assoc]⟩
    rw [List.cons_append, List.cons_append, List.append_assoc]
    rw [show t ++ crlf ++ rest = t ++ (crlf ++ rest) from by simp [List.append_assoc]] at hdx iht
    rw [hdx]
    simp only [splitOnCRLF, ha, false_and, if_false]
    rw [← hdx, iht]

theorem splitOnCRLF_inter (L : List Bytes)
    (h : ∀ l ∈ L, ∀ c ∈ l, c ≠ '\r') (hne : L ≠ []) :
    splitOnCRLF (interCRLF L) = L := by
  induction L with
  | nil => exact absurd rfl hne
  | cons l rest ih =>
    cases rest with
    | nil => exact splitOnCRLF_no_cr l (h l (by simp))
    | cons l2 rest2 =>
      rw [show interCRLF (l :: l2 :: rest2) = l ++ crlf ++ interCRLF (l2 :: rest2)
        from rfl]
      rw [splitOnCRLF_append l _ (h l (by simp))]
      rw [ih (fun x hx => h x (by simp [hx])) (by simp)]

theorem hset_append (m : HeaderLines) (k v : Bytes) (h : ∀ kv ∈ m, kv.1 ≠ k) :
    hset m k v = m ++ [(k, v)] := by
  induction m with
  | nil => rfl
  | cons kv rest ih =>
    have hkv := h kv (by simp)
    simp [hset, hkv, ih (fun x hx => h x (by simp [hx]))]

theorem foldl_hset (L : HeaderLines) (acc : HeaderLines)
    (hd : ∀ kv ∈ L, ∀ kv2 ∈ acc, kv.1 ≠ kv2.1)
    (hnd : (L.map Prod.fst).Nodup) :
    L.foldl (fun m kv => hset m kv.1 (' ' :: kv.2)) acc =
      acc ++ L.map (fun kv => (kv.1, ' ' :: kv.2)) := by
  induction L generalizing acc with
  | nil => simp
  | cons kv rest ih =>
    rw [List.map_cons, List.nodup_cons] at hnd
    have hstep : hset acc kv.1 (' ' :: kv.2) = acc ++ [(kv.1, ' ' :: kv.2)] :=
      hset_append acc _ _ (fun kv2 h2 => Ne.symm (hd kv (by simp) kv2 h2))
    rw [List.foldl_cons, hstep]
    rw [ih (acc ++ [(kv.1, ' ' :: kv.2)]) ?hd2 hnd.2]
    · simp
    case hd2 =>
      intro kv3 h3 kv2 h2
      rcases List.mem_append.mp h2 with h2a | h2b
      · exact hd kv3 (by simp [h3]) kv2 h2a
      · have : kv2 = (kv.1, ' ' :: kv.2) := by simpa using h2b
        subst this
        intro hEq
        exact hnd.1 (hEq ▸ List.mem_map_of_mem Prod.fst h3)

theorem processLines_reqline (rl : Bytes) (rest : List Bytes) (hdrs : HeaderLines)
    (cl : Int) (hne : rl ≠ []) (hnc : ∀ c ∈ rl, c ≠ ':') :
    processLines (rl :: rest) hdrs cl = processLines rest hdrs cl := by
  simp [processLines, hne, indexOfSub_singleton_none ':' rl hnc]

theorem processLines_serialized (L : HeaderLines) (acc : HeaderLines) (cl : Int)
    (h : ∀ kv ∈ L, (∀ c ∈ kv.1, c ≠ ':') ∧ toLowerB kv.1 = kv.1 ∧
      kv.1 ≠ contentLengthKey) :
    processLines (L.map serLine) acc cl =
      some (L.foldl (fun m kv => hset m kv.1 (' ' :: kv.2)) acc, cl) := by
  induction L generalizing acc with
  | nil => rfl
  | cons kv rest ih =>
    obtain ⟨hk, hlow, hncl⟩ := h kv (by simp)
    have hne : serLine kv ≠ [] := by simp [serLine]
    have hidx : indexOfSub [':'] (serLine kv) = some kv.1.length :=
      indexOfSub_singleton_append ':' kv.1 (' ' :: kv.2) hk
    have htake : (serLine kv).take kv.1.length = kv.1 := by
      rw [show serLine kv = kv.1 ++ ':' :: ' ' :: kv.2 from rfl]
      exact List.take_left _ _
    have hdrop : (serLine kv).drop (kv.1.length + 1) = ' ' :: kv.2 := by
      rw [show serLine kv = kv.1 ++ ':' :: ' ' :: kv.2 from rfl]
      rw [← List.drop_drop, List.drop_left]
      rfl
    rw [List.map_cons]
    rw [show processLines (serLine kv :: rest.map serLine) acc cl =
        processLines (rest.map serLine)
          (hset acc (toLowerB ((serLine kv).take kv.1.length))
            ((serLine kv).drop (kv.1.length + 1))) cl by
      simp [processLines, hne, hidx, htake, hlow, hncl]]
    rw [htake, hdrop, hlow]
    rw [ih _ (fun x hx => h x (by simp [hx]))]
    rw [List.foldl_cons]



/-- C2, amended: serializing a decoded Request and re-decoding it
preserves method, url, version and the set of header keys, but not the
header values: every re-decoded value is the original value with one
space prepended (the `": "` of the serializer).  Stated for requests of
the decoder's own making — lower-cased colon/space/CR/LF-free tokens,
lower-cased colon-free keys, CR/LF-free values, distinct keys, at least
one header, no `content-length` header, empty body; with a
`content-length` header re-decoding fails outright, and with no headers
it returns the invalid-packet error. -/
theorem C2_amended (req : Request)
    (hm : tokenOK req.Method) (hu : tokenOK req.Url) (hv : tokenOK req.Version)
    (hl : ∀ kv ∈ req.Lines, keyOK kv.1 ∧ valOK kv.2)
    (hnd : (req.Lines.map Prod.fst).Nodup)
    (hne : req.Lines ≠ [])
    (hncl : ∀ kv ∈ req.Lines, kv.1 ≠ contentLengthKey)
    (hc : req.Content = []) :
    UnmarshalRequest (Request.ToString req) =
      .ok { Method := req.Method, Url := req.Url, Version := req.Version,
            Lines := req.Lines.map (fun kv => (kv.1, ' ' :: kv.2)),
            Content := [] }
        (Int.ofNat (Request.ToString req).length) := by
  obtain ⟨hmch, hmlow⟩ := hm
  obtain ⟨huch, hulow⟩ := hu
  obtain ⟨hvch, hvlow⟩ := hv
  have hSLne : req.Lines.map serLine ≠ [] := by simp [hne]
  have hLfacts : ∀ l ∈ (req.Method ++ ' ' :: (req.Url ++ ' ' :: req.Version))
      :: req.Lines.map serLine, l ≠ [] ∧ ∀ c ∈ l, c ≠ '\r' := by
    intro l hlmem
    rcases List.mem_cons.mp hlmem with hEq | hmem
    · subst hEq
      refine ⟨by simp, ?_⟩
      intro c hc
      simp only [List.mem_append, List.mem_cons] at hc
      rcases hc with hcm | hcc | hcu | hcc | hcv
      · exact (hmch c hcm).2.2.1
      · subst hcc; decide
      · exact (huch c hcu).2.2.1
      · subst hcc; decide
      · exact (hvch c hcv).2.2.1
    · obtain ⟨kv, hkvmem, hkveq⟩ := List.mem_map.mp hmem
      obtain ⟨⟨hkch, hklow⟩, hvalch⟩ := hl kv hkvmem
      refine ⟨by rw [← hkveq]; simp [serLine], ?_⟩
      intro c hc
      rw [← hkveq] at hc
      simp only [serLine, List.mem_append, List.mem_cons] at hc
      rcases hc with hck | hcc | hcc | hcv2
      · exact (hkch c hck).2.1
      · subst hcc; decide
      · subst hcc; decide
      · exact (hvalch c hcv2).1
  have hshape : Request.ToString req =
      interCRLF ((req.Method ++ ' ' :: (req.Url ++ ' ' :: req.Version))
          :: req.Lines.map serLine) ++ crlfcrlf ++ [] := by
    rw [toString_as_inter req hne, hc]
  have hidx : indexOfSub crlfcrlf (Request.ToString req) =
      some (interCRLF ((req.Method ++ ' ' :: (req.Url ++ ' ' :: req.Version))
        :: req.Lines.map serLine)).length := by
    rw [hshape]
    exact indexOfSub_crlfcrlf_inter _ hLfacts [] (by simp)
  have htake : (Request.ToString req).take
      (interCRLF ((req.Method ++ ' ' :: (req.Url ++ ' ' :: req.Version))
        :: req.Lines.map serLine)).length =
      interCRLF ((req.Method ++ ' ' :: (req.Url ++ ' ' :: req.Version))
        :: req.Lines.map serLine) := by
    rw [hshape, List.append_assoc]
    exact List.take_left _ _
  have hsplit : splitOnCRLF (interCRLF ((req.Method ++ ' ' :: (req.Url ++ ' ' :: req.Version))
      :: req.Lines.map serLine)) =
      (req.Method ++ ' ' :: (req.Url ++ ' ' :: req.Version)) :: req.Lines.map serLine :=
    splitOnCRLF_inter _ (fun l hl2 => (hLfacts l hl2).2) (by simp)
  have hparts : splitOnChar ' ' (req.Method ++ ' ' :: (req.Url ++ ' ' :: req.Version)) =
      [req.Method, req.Url, req.Version] := by
    rw [splitOnChar_append ' ' req.Method _ (fun c hc => (hmch c hc).1)]
    rw [splitOnChar_append ' ' req.Url _ (fun c hc => (huch c hc).1)]
    rw [splitOnChar_no_sep ' ' req.Version (fun c hc => (hvch c hc).1)]
  have hproc : processLines ((req.Method ++ ' ' :: (req.Url ++ ' ' :: req.Version))
      :: req.Lines.map serLine) [] 0 =
      some (req.Lines.map (fun kv => (kv.1, ' ' :: kv.2)), 0) := by
    rw [processLines_reqline _ _ [] 0 (hLfacts _ (by simp)).1 ?rlnc]
    · rw [processLines_serialized req.Lines [] 0 ?hok]
      · rw [foldl_hset req.Lines [] (by simp) hnd]
        simp
      case hok =>
        intro kv hkv
        exact ⟨fun c hc => ((hl kv hkv).1.1 c hc).1, (hl kv hkv).1.2, hncl kv hkv⟩
    case rlnc =>
      intro c hc
      simp only [List.mem_append, List.mem_cons] at hc
      rcases hc with hcm | hcc | hcu | hcc | hcv
      · exact (hmch c hcm).2.1
      · subst hcc; decide
      · exact (huch c hcu).2.1
      · subst hcc; decide
      · exact (hvch c hcv).2.1
  have hlen : (Request.ToString req).length =
      (interCRLF ((req.Method ++ ' ' :: (req.Url ++ ' ' :: req.Version))
        :: req.Lines.map serLine)).length + 4 := by
    rw [hshape]
    simp [crlfcrlf]
  simp only [UnmarshalRequest, hidx, htake, hsplit, List.headD_cons, hparts,
    hproc, List.length_cons]
  rw [if_neg ?lenok]
  · rw [if_neg ?parts3]
    · rw [if_neg ?bound]
      · simp only [List.getD_cons_zero, List.getD_cons_succ]
        rw [hmlow, hulow, hvlow]
        congr 1
        rw [hlen]
        simp only [Int.ofNat_eq_coe]
        push_cast
        ring
      case bound =>
        rw [hlen]
        simp only [Int.ofNat_eq_coe]
        omega
    case parts3 => simp
  case lenok =>
    simp only [not_lt]
    have hpos : 0 < (req.Lines.map serLine).length := List.length_pos.mpr hSLne
    omega



/-- C2, counterexample: decoding `"a b c\r\nx:1\r\n\r\n"` yields the
header entry `"x" -> "1"`; serializing the decoded request and decoding
the serialization again yields `"x" -> " 1"` — `HeaderLines.String`
emits `"key: value"` with a space the original value did not have, so
the header-name-to-value mapping is not preserved. -/
theorem C2_counterexample :
    (UnmarshalRequest rtInput).request.map (fun r => hget r.Lines ['x']) =
        some ['1'] ∧
      ((UnmarshalRequest rtInput).request.bind
          (fun r => (UnmarshalRequest (Request.ToString r)).request)).map
        (fun r => hget r.Lines ['x']) = some [' ', '1'] := by
  decide

/-- C2, instance: `C2_amended` evaluated on a concrete request. -/
theorem C2_witness :
    UnmarshalRequest (Request.ToString rtReq) =
      .ok ⟨"a".toList, "b".toList, "c".toList,
          [("x".toList, ' ' :: "1".toList)], []⟩
        (Int.ofNat (Request.ToString rtReq).length) := by
  have h := C2_amended rtReq ⟨by decide, by decide⟩ ⟨by decide, by decide⟩
    ⟨by decide, by decide⟩
    (by intro kv hkv; simp [rtReq] at hkv; subst hkv
        exact ⟨⟨by decide, by decide⟩, by decide⟩)
    (by decide) (by decide)
    (by intro kv hkv; simp [rtReq] at hkv; subst hkv; decide)
    rfl
  simpa using h

end Neon
